import Mathlib

/-!
Verification of the prefix-trie permission matcher (`src/Permissions.js`).

The JavaScript source defines three classes:

* `ExpressionNode` — a trie node with a `value` string, a `children` map
  from single characters to child nodes, and two boolean flags
  `allowFlag` / `disallowFlag`.
* `ExpressionTree` — owns a dummy root node and an immutable
  `DEFAULT_PERMISSION` boolean; `addExpression` inserts a pattern,
  `evaluateExpression` / `__evaluateExpression` evaluates a path.
* `Permissions` — a facade fixing `DEFAULT_PERMISSION = true` and
  delegating `addPath` / `isAllowed` to the tree.

The JS `Map` used for `children` is only ever accessed through
`has` / `get` / `set` (the source never iterates it), so its semantics is
that of a finite map from `Char` to nodes.  We embed it as an association
list kept in a canonical (sorted by key) form, so that extensionally equal
maps are equal Lean values.  Strings are modelled through their character
lists (`String.data`), matching the JS per-character indexing.
-/

set_option autoImplicit false

namespace Spiderbot

/-- Trie node, mirroring the JS `ExpressionNode` class: a `value` string
(the character that led here, `""` for the root), the two rule flags and
the children map (canonical association list keyed by `Char`). -/
inductive ExpressionNode where
  | mk (value : String) (allowFlag : Bool) (disallowFlag : Bool)
       (children : List (Char × ExpressionNode))

/-- The `value` field of a node. -/
def ExpressionNode.value : ExpressionNode → String
  | .mk v _ _ _ => v

/-- The `allowFlag` field of a node. -/
def ExpressionNode.allowFlag : ExpressionNode → Bool
  | .mk _ a _ _ => a

/-- The `disallowFlag` field of a node. -/
def ExpressionNode.disallowFlag : ExpressionNode → Bool
  | .mk _ _ d _ => d

/-- The `children` map of a node. -/
def ExpressionNode.children : ExpressionNode → List (Char × ExpressionNode)
  | .mk _ _ _ cs => cs

/-- `new ExpressionNode(value)`: fresh node, both flags false, no children. -/
def ExpressionNode.new (value : String) : ExpressionNode :=
  .mk value false false []

/-- Replace the children map, keeping value and flags. -/
def ExpressionNode.withChildren : ExpressionNode → List (Char × ExpressionNode) → ExpressionNode
  | .mk v a d _, cs => .mk v a d cs

/-- Set the `allowFlag` field. -/
def ExpressionNode.withAllowFlag : ExpressionNode → Bool → ExpressionNode
  | .mk v _ d cs, a => .mk v a d cs

/-- Set the `disallowFlag` field. -/
def ExpressionNode.withDisallowFlag : ExpressionNode → Bool → ExpressionNode
  | .mk v a _ cs, d => .mk v a d cs

/-- `children.get(c)` / `children.has(c)`: lookup in the children map. -/
def lookupChild : List (Char × ExpressionNode) → Char → Option ExpressionNode
  | [], _ => none
  | (c', n) :: t, c => if c = c' then some n else lookupChild t c

/-- `children.set(c, n)`: update the children map at key `c`, keeping the
canonical sorted-by-key form (replace if present, insert in order if not). -/
def setChild : List (Char × ExpressionNode) → Char → ExpressionNode → List (Char × ExpressionNode)
  | [], c, n => [(c, n)]
  | (c', n') :: t, c, n =>
    if c = c' then (c, n) :: t
    else if c < c' then (c, n) :: (c', n') :: t
    else (c', n') :: setChild t c n

/-- The scan over the collected wildcard verdicts (`__evaluateExpression`,
second `for` loop): the first verdict differing from the default permission
replaces the running verdict; if none differs it is left unchanged. -/
def pickVeredict (dp : Bool) : List Bool → Bool → Bool
  | [], fallback => fallback
  | b :: rest, fallback => if b != dp then b else pickVeredict dp rest fallback

/-- The `$`-anchor check at the top of `__evaluateExpression` (lines
79-87): if the node has a `$` child, and the remaining expression is
empty, return `true` if the child's `allowFlag` is set, else `false` if
its `disallowFlag` is set; in every other case fall through (`none`). -/
def anchorCheck (node : ExpressionNode) (expression : List Char) : Option Bool :=
  match lookupChild node.children '$' with
  | some endOfLineNode =>
    if endOfLineNode.allowFlag && expression.isEmpty then some true
    else if endOfLineNode.disallowFlag && expression.isEmpty then some false
    else none
  | none => none

/-- The flag fold of `__evaluateExpression` (lines 96-104): a set
`disallowFlag` forces the verdict to `false`, then a set `allowFlag`
(checked after, so it wins ties) forces it to `true`. -/
def foldFlags (node : ExpressionNode) (currentVeredict : Bool) : Bool :=
  let v1 := if node.disallowFlag then false else currentVeredict
  if node.allowFlag then true else v1

mutual

/-- The recursive evaluator `__evaluateExpression(expression, node,
currentVeredict)` of `ExpressionTree`, with the tree's
`DEFAULT_PERMISSION` passed as `dp`.  Step for step: the `$`-anchor check
(which returns only when the remaining expression is empty), the
empty-expression base case, the flag fold, the wildcard branch (handled by
`wildcardVeredicts` plus `pickVeredict`), and the literal branch. -/
def __evaluateExpression (dp : Bool) : List Char → ExpressionNode → Bool → Bool
  | expression, node, currentVeredict =>
    match anchorCheck node expression with
    | some r => r
    | none =>
      match expression with
      | [] =>
        if dp then (if node.disallowFlag then false else currentVeredict)
        else (if node.allowFlag then true else currentVeredict)
      | c :: rest =>
        let newVeredict := foldFlags node currentVeredict
        let v2 :=
          match _h : lookupChild node.children '*' with
          | some wildcardStartNode =>
            pickVeredict dp
              (wildcardVeredicts dp (c :: rest) wildcardStartNode newVeredict)
              newVeredict
          | none => newVeredict
        match _h2 : lookupChild node.children c with
        | some child => __evaluateExpression dp rest child v2
        | none => v2
  termination_by e n _v => sizeOf n * (e.length + 2) + e.length
  decreasing_by
  · have key : ∀ (cs : List (Char × ExpressionNode)) (c : Char) (u : ExpressionNode),
        lookupChild cs c = some u → sizeOf u < sizeOf cs := by
      intro cs
      induction cs with
      | nil => intro c u h; simp [lookupChild] at h
      | cons hd tl ih =>
        intro c u h
        obtain ⟨c', n'⟩ := hd
        simp only [lookupChild] at h
        by_cases hc : c = c'
        · simp [hc] at h; subst h; simp; omega
        · simp [hc] at h; have := ih c u h; simp; omega
    have hs : sizeOf wildcardStartNode < sizeOf node := by
      have h1 := key node.children '*' wildcardStartNode _h
      obtain ⟨v, a, d, cs⟩ := node
      simp [ExpressionNode.children] at h1 ⊢
      omega
    simp only [List.length_cons]
    nlinarith
  · have key : ∀ (cs : List (Char × ExpressionNode)) (c' : Char) (u : ExpressionNode),
        lookupChild cs c' = some u → sizeOf u < sizeOf cs := by
      intro cs
      induction cs with
      | nil => intro c' u h; simp [lookupChild] at h
      | cons hd tl ih =>
        intro c' u h
        obtain ⟨c'', n'⟩ := hd
        simp only [lookupChild] at h
        by_cases hc : c' = c''
        · simp [hc] at h; subst h; simp; omega
        · simp [hc] at h; have := ih c' u h; simp; omega
    have hs : sizeOf child < sizeOf node := by
      have h1 := key node.children c child _h2
      obtain ⟨v, a, d, cs⟩ := node
      simp [ExpressionNode.children] at h1 ⊢
      omega
    simp only [List.length_cons]
    nlinarith

/-- The first `for` loop of the wildcard branch: for each start offset
`i < expression.length` (in increasing order) evaluate the suffix
`expression.substr(i)` against the wildcard child with the (fixed) running
verdict, collecting one boolean per offset. -/
def wildcardVeredicts (dp : Bool) : List Char → ExpressionNode → Bool → List Bool
  | [], _, _ => []
  | c :: rest, wildcardStartNode, newVeredict =>
    __evaluateExpression dp (c :: rest) wildcardStartNode newVeredict
      :: wildcardVeredicts dp rest wildcardStartNode newVeredict
  termination_by e n _v => sizeOf n * (e.length + 2) + e.length + 1
  decreasing_by
  · simp only [List.length_cons]
    nlinarith
  · have hpos : 0 < sizeOf wildcardStartNode := by
      obtain ⟨v, a, d, cs⟩ := wildcardStartNode
      simp
    simp only [List.length_cons]
    nlinarith

end

/-- Flag update performed at the node for the pattern's last character
(`addExpression`, the `if i == expression.length - 1` body): set
`allowFlag` for `"allow"`, `disallowFlag` for `"disallow"`, and leave the
node unchanged for any other rule type (the source only logs an error). -/
def setFlags (node : ExpressionNode) (ruleType : String) : ExpressionNode :=
  if ruleType = "allow" then node.withAllowFlag true
  else if ruleType = "disallow" then node.withDisallowFlag true
  else node

/-- The walk of `addExpression` from the current node over the remaining
pattern characters: get-or-create the child for the next character,
descend, and at the last character apply `setFlags`.  An empty pattern
performs no step at all. -/
def addExpressionAux : ExpressionNode → List Char → String → ExpressionNode
  | node, [], _ => node
  | node, c :: cs, ruleType =>
    let child :=
      match lookupChild node.children c with
      | some u => u
      | none => ExpressionNode.new (String.singleton c)
    let child' :=
      match cs with
      | [] => setFlags child ruleType
      | _ :: _ => addExpressionAux child cs ruleType
    node.withChildren (setChild node.children c child')

/-- Whether `addExpression(expression, ruleType)` prints the
`"Can't add expression to the tree, rule type not defined"` diagnostic:
it fires exactly when the loop reaches the last character (the pattern is
non-empty) and the rule type is neither `"allow"` nor `"disallow"`. -/
def addExpressionReports (expression ruleType : String) : Bool :=
  expression.data ≠ [] && ruleType ≠ "allow" && ruleType ≠ "disallow"

/-- The JS `ExpressionTree`: a dummy root node plus the immutable default
permission fixed at construction. -/
structure ExpressionTree where
  root : ExpressionNode
  DEFAULT_PERMISSION : Bool

/-- `new ExpressionTree(DEFAULT_PERMISSION)`. -/
def ExpressionTree.new (dp : Bool) : ExpressionTree :=
  ⟨ExpressionNode.new "", dp⟩

/-- `ExpressionTree.addExpression(expression, ruleType)`. -/
def ExpressionTree.addExpression (t : ExpressionTree) (expression ruleType : String) :
    ExpressionTree :=
  ⟨addExpressionAux t.root expression.data ruleType, t.DEFAULT_PERMISSION⟩

/-- `ExpressionTree.evaluateExpression(expression)`: seed the recursion
with the full path, the root and the default permission. -/
def ExpressionTree.evaluateExpression (t : ExpressionTree) (expression : String) : Bool :=
  __evaluateExpression t.DEFAULT_PERMISSION expression.data t.root t.DEFAULT_PERMISSION

/-- The JS `Permissions` facade. -/
structure Permissions where
  DEFAULT_PERMISSION : Bool
  trie : ExpressionTree

/-- `new Permissions()`: the constructor hard-codes
`DEFAULT_PERMISSION = true` and builds the trie with it; no parameter is
exposed to configure it. -/
def Permissions.new : Permissions :=
  ⟨true, ExpressionTree.new true⟩

/-- `Permissions.addPath(path, ruleType)`: delegate to `addExpression`. -/
def Permissions.addPath (P : Permissions) (path ruleType : String) : Permissions :=
  ⟨P.DEFAULT_PERMISSION, P.trie.addExpression path ruleType⟩

/-- `Permissions.isAllowed(path)`: delegate to `evaluateExpression`. -/
def Permissions.isAllowed (P : Permissions) (path : String) : Bool :=
  P.trie.evaluateExpression path

/-- Apply a finite sequence of `(pattern, ruleType)` insertions in order. -/
def applyAll (t : ExpressionTree) (rules : List (String × String)) : ExpressionTree :=
  rules.foldl (fun acc r => acc.addExpression r.1 r.2) t

/-- Follow a literal character sequence through the children maps. -/
def nodeAtPath : ExpressionNode → List Char → Option ExpressionNode
  | n, [] => some n
  | n, c :: cs =>
    match lookupChild n.children c with
    | some u => nodeAtPath u cs
    | none => none

/-- One step of the algorithm of `__evaluateExpression`, with the
recursive calls abstracted as `recE` (evaluator) and `recW` (wildcard
verdict collector) returning `Option` results. -/
def evalBody (dp : Bool)
    (recE : List Char → ExpressionNode → Bool → Option Bool)
    (recW : List Char → ExpressionNode → Bool → Option (List Bool))
    (expression : List Char) (node : ExpressionNode) (currentVeredict : Bool) :
    Option Bool :=
  match anchorCheck node expression with
  | some r => some r
  | none =>
    match expression with
    | [] =>
      some (if dp then (if node.disallowFlag then false else currentVeredict)
            else (if node.allowFlag then true else currentVeredict))
    | c :: rest =>
      let newVeredict := foldFlags node currentVeredict
      let ov2 : Option Bool :=
        match lookupChild node.children '*' with
        | some wildcardStartNode =>
          match recW (c :: rest) wildcardStartNode newVeredict with
          | some veredicts => some (pickVeredict dp veredicts newVeredict)
          | none => none
        | none => some newVeredict
      match ov2 with
      | none => none
      | some v2 =>
        match lookupChild node.children c with
        | some child => recE rest child v2
        | none => some v2

/-- One step of the wildcard verdict collection, recursive calls
abstracted as in `evalBody`. -/
def wvBody
    (recE : List Char → ExpressionNode → Bool → Option Bool)
    (recW : List Char → ExpressionNode → Bool → Option (List Bool))
    (expression : List Char) (wildcardStartNode : ExpressionNode)
    (newVeredict : Bool) : Option (List Bool) :=
  match expression with
  | [] => some []
  | c :: rest =>
    match recE (c :: rest) wildcardStartNode newVeredict,
          recW rest wildcardStartNode newVeredict with
    | some b, some bs => some (b :: bs)
    | _, _ => none

mutual

/-- Fuel-indexed evaluator: the same algorithm as `__evaluateExpression`,
but recursion is cut off when the fuel runs out (returning `none`).  Used
to state that the source's recursion terminates, and to compute concrete
evaluations. -/
def evalFuel (dp : Bool) : Nat → List Char → ExpressionNode → Bool → Option Bool
  | 0, _, _, _ => none
  | fuel + 1, expression, node, currentVeredict =>
    evalBody dp (evalFuel dp fuel) (wvFuel dp fuel) expression node currentVeredict

/-- Fuel-indexed version of `wildcardVeredicts`. -/
def wvFuel (dp : Bool) : Nat → List Char → ExpressionNode → Bool → Option (List Bool)
  | 0, _, _, _ => none
  | fuel + 1, expression, wildcardStartNode, newVeredict =>
    wvBody (evalFuel dp fuel) (wvFuel dp fuel) expression wildcardStartNode newVeredict

end

/-- Operation language over the `Permissions` facade: an insertion or a
query, in the order a client issues them. -/
inductive Op where
  | addPath (path ruleType : String)
  | isAllowed (path : String)

/-- Run a sequence of facade operations, returning the final matcher and
the list of query results in order.  `addPath` updates the matcher;
`isAllowed` computes its result from the current matcher which — exactly
as in the source, whose evaluator contains no assignment to any node or
tree field — it leaves untouched. -/
def runOps (P : Permissions) : List Op → Permissions × List Bool
  | [] => (P, [])
  | Op.addPath p k :: rest => runOps (P.addPath p k) rest
  | Op.isAllowed p :: rest =>
    let r := runOps P rest
    (r.1, P.isAllowed p :: r.2)

/-- A subtree carrying no flags anywhere: what an insertion with an
invalid rule type creates along the fresh part of its pattern's path. -/
inductive Ghost : ExpressionNode → Prop where
  | intro (n : ExpressionNode) :
      n.allowFlag = false → n.disallowFlag = false →
      (∀ c u, lookupChild n.children c = some u → Ghost u) → Ghost n

/-- Ghost extension: `GE t t'` says `t'` is `t` with (possibly) extra
flagless subtrees grafted on: flags agree at every node present in both,
`t'` has every child key of `t`, and any extra child of `t'` is `Ghost`. -/
inductive GE : ExpressionNode → ExpressionNode → Prop where
  | intro (t t' : ExpressionNode) :
      t.allowFlag = t'.allowFlag →
      t.disallowFlag = t'.disallowFlag →
      (∀ c u u', lookupChild t.children c = some u →
        lookupChild t'.children c = some u' → GE u u') →
      (∀ c u', lookupChild t.children c = none →
        lookupChild t'.children c = some u' → Ghost u') →
      (∀ c u, lookupChild t.children c = some u →
        lookupChild t'.children c ≠ none) →
      GE t t'

/-! ### Theorems about the embedding -/

theorem ExpressionNode.value_mk (v : String) (a d : Bool)
    (cs : List (Char × ExpressionNode)) : (ExpressionNode.mk v a d cs).value = v := rfl

theorem ExpressionNode.allowFlag_mk (v : String) (a d : Bool)
    (cs : List (Char × ExpressionNode)) : (ExpressionNode.mk v a d cs).allowFlag = a := rfl

theorem ExpressionNode.disallowFlag_mk (v : String) (a d : Bool)
    (cs : List (Char × ExpressionNode)) : (ExpressionNode.mk v a d cs).disallowFlag = d := rfl

theorem ExpressionNode.children_mk (v : String) (a d : Bool)
    (cs : List (Char × ExpressionNode)) : (ExpressionNode.mk v a d cs).children = cs := rfl

theorem withChildren_children (n : ExpressionNode) (cs : List (Char × ExpressionNode)) :
    (n.withChildren cs).children = cs := by
  obtain ⟨v, a, d, cs₀⟩ := n; rfl

theorem withChildren_allowFlag (n : ExpressionNode) (cs : List (Char × ExpressionNode)) :
    (n.withChildren cs).allowFlag = n.allowFlag := by
  obtain ⟨v, a, d, cs₀⟩ := n; rfl

theorem withChildren_disallowFlag (n : ExpressionNode) (cs : List (Char × ExpressionNode)) :
    (n.withChildren cs).disallowFlag = n.disallowFlag := by
  obtain ⟨v, a, d, cs₀⟩ := n; rfl

theorem withChildren_value (n : ExpressionNode) (cs : List (Char × ExpressionNode)) :
    (n.withChildren cs).value = n.value := by
  obtain ⟨v, a, d, cs₀⟩ := n; rfl

theorem withChildren_withChildren (n : ExpressionNode)
    (cs cs' : List (Char × ExpressionNode)) :
    (n.withChildren cs).withChildren cs' = n.withChildren cs' := by
  obtain ⟨v, a, d, cs₀⟩ := n; rfl

theorem setFlags_children (n : ExpressionNode) (k : String) :
    (setFlags n k).children = n.children := by
  obtain ⟨v, a, d, cs⟩ := n
  unfold setFlags
  split <;> try rfl
  split <;> rfl

theorem setFlags_value (n : ExpressionNode) (k : String) :
    (setFlags n k).value = n.value := by
  obtain ⟨v, a, d, cs⟩ := n
  unfold setFlags
  split <;> try rfl
  split <;> rfl


theorem lookupChild_sizeOf :
    ∀ (cs : List (Char × ExpressionNode)) (c : Char) (u : ExpressionNode),
      lookupChild cs c = some u → sizeOf u < sizeOf cs := by
  intro cs
  induction cs with
  | nil => intro c u h; simp [lookupChild] at h
  | cons hd tl ih =>
    intro c u h
    obtain ⟨c', n'⟩ := hd
    simp only [lookupChild] at h
    by_cases hc : c = c'
    · simp [hc] at h
      subst h
      simp
      omega
    · simp [hc] at h
      have := ih c u h
      simp
      omega

theorem ExpressionNode.sizeOf_pos (n : ExpressionNode) : 0 < sizeOf n := by
  obtain ⟨v, a, d, cs⟩ := n
  simp

theorem lookupChild_node_sizeOf {n : ExpressionNode} {c : Char} {u : ExpressionNode}
    (h : lookupChild n.children c = some u) : sizeOf u < sizeOf n := by
  have h1 := lookupChild_sizeOf n.children c u h
  obtain ⟨v, a, d, cs⟩ := n
  simp [ExpressionNode.children] at h1 ⊢
  omega

theorem wildcardVeredicts_nil (dp : Bool) (n : ExpressionNode) (v : Bool) :
    wildcardVeredicts dp [] n v = [] := by
  rw [wildcardVeredicts]

theorem wildcardVeredicts_cons (dp : Bool) (c : Char) (rest : List Char)
    (n : ExpressionNode) (v : Bool) :
    wildcardVeredicts dp (c :: rest) n v =
      __evaluateExpression dp (c :: rest) n v :: wildcardVeredicts dp rest n v := by
  rw [wildcardVeredicts]

theorem anchorCheck_cons (n : ExpressionNode) (c : Char) (rest : List Char) :
    anchorCheck n (c :: rest) = none := by
  unfold anchorCheck
  cases lookupChild n.children '$' <;> simp

theorem eval_nil (dp : Bool) (n : ExpressionNode) (v : Bool) :
    __evaluateExpression dp [] n v =
      (match anchorCheck n [] with
       | some r => r
       | none =>
         if dp then (if n.disallowFlag then false else v)
         else (if n.allowFlag then true else v)) := by
  rw [__evaluateExpression]

theorem eval_cons (dp : Bool) (c : Char) (rest : List Char) (n : ExpressionNode) (v : Bool) :
    __evaluateExpression dp (c :: rest) n v =
      (let newVeredict := foldFlags n v
       let v2 :=
         match lookupChild n.children '*' with
         | some wildcardStartNode =>
           pickVeredict dp
             (wildcardVeredicts dp (c :: rest) wildcardStartNode newVeredict)
             newVeredict
         | none => newVeredict
       match lookupChild n.children c with
       | some child => __evaluateExpression dp rest child v2
       | none => v2) := by
  rw [__evaluateExpression]
  rw [anchorCheck_cons]
  cases hst : lookupChild n.children '*' <;> cases hlit : lookupChild n.children c <;>
    simp [hst, hlit]

theorem evalFuel_succ (dp : Bool) (fuel : Nat) (e : List Char) (n : ExpressionNode) (v : Bool) :
    evalFuel dp (fuel + 1) e n v = evalBody dp (evalFuel dp fuel) (wvFuel dp fuel) e n v := rfl

theorem wvFuel_succ (dp : Bool) (fuel : Nat) (e : List Char) (n : ExpressionNode) (v : Bool) :
    wvFuel dp (fuel + 1) e n v = wvBody (evalFuel dp fuel) (wvFuel dp fuel) e n v := rfl

theorem evalBody_mono (dp : Bool)
    (recE recE' : List Char → ExpressionNode → Bool → Option Bool)
    (recW recW' : List Char → ExpressionNode → Bool → Option (List Bool))
    (hE : ∀ e n v b, recE e n v = some b → recE' e n v = some b)
    (hW : ∀ e n v bs, recW e n v = some bs → recW' e n v = some bs) :
    ∀ e n v b, evalBody dp recE recW e n v = some b →
      evalBody dp recE' recW' e n v = some b := by
  intro e n v b h
  unfold evalBody at h ⊢
  cases hA : anchorCheck n e with
  | some r => simp only [hA] at h ⊢; exact h
  | none =>
    simp only [hA] at h ⊢
    cases e with
    | nil => exact h
    | cons c rest =>
      cases hst : lookupChild n.children '*' with
      | none =>
        simp only [hst] at h ⊢
        cases hlit : lookupChild n.children c with
        | none => simp only [hlit] at h ⊢; exact h
        | some child => simp only [hlit] at h ⊢; exact hE _ _ _ _ h
      | some w =>
        simp only [hst] at h ⊢
        cases hwv : recW (c :: rest) w (foldFlags n v) with
        | none => simp [hwv] at h
        | some vs =>
          have hwv' := hW _ _ _ _ hwv
          simp only [hwv, hwv'] at h ⊢
          cases hlit : lookupChild n.children c with
          | none => simp only [hlit] at h ⊢; exact h
          | some child => simp only [hlit] at h ⊢; exact hE _ _ _ _ h

theorem wvBody_mono
    (recE recE' : List Char → ExpressionNode → Bool → Option Bool)
    (recW recW' : List Char → ExpressionNode → Bool → Option (List Bool))
    (hE : ∀ e n v b, recE e n v = some b → recE' e n v = some b)
    (hW : ∀ e n v bs, recW e n v = some bs → recW' e n v = some bs) :
    ∀ e n v bs, wvBody recE recW e n v = some bs →
      wvBody recE' recW' e n v = some bs := by
  intro e n v bs h
  cases e with
  | nil => exact h
  | cons c rest =>
    unfold wvBody at h ⊢
    cases h1 : recE (c :: rest) n v with
    | none => simp [h1] at h
    | some b =>
      cases h2 : recW rest n v with
      | none => simp [h1, h2] at h
      | some bs' =>
        have h1' := hE _ _ _ _ h1
        have h2' := hW _ _ _ _ h2
        simp only [h1, h2] at h
        simp only [h1', h2']
        exact h

theorem fuelMono (dp : Bool) : ∀ fuel : Nat,
    (∀ e n v b, evalFuel dp fuel e n v = some b → evalFuel dp (fuel + 1) e n v = some b)
  ∧ (∀ e n v bs, wvFuel dp fuel e n v = some bs → wvFuel dp (fuel + 1) e n v = some bs) := by
  intro fuel
  induction fuel with
  | zero =>
    constructor
    · intro e n v b h; simp [evalFuel] at h
    · intro e n v bs h; simp [wvFuel] at h
  | succ fuel ih =>
    constructor
    · intro e n v b h
      rw [evalFuel_succ] at h ⊢
      exact evalBody_mono dp _ _ _ _ ih.1 ih.2 e n v b h
    · intro e n v bs h
      rw [wvFuel_succ] at h ⊢
      exact wvBody_mono _ _ _ _ ih.1 ih.2 e n v bs h

theorem evalFuel_mono_le (dp : Bool) {k k' : Nat} (hk : k ≤ k')
    {e : List Char} {n : ExpressionNode} {v b : Bool}
    (h : evalFuel dp k e n v = some b) : evalFuel dp k' e n v = some b := by
  induction hk with
  | refl => exact h
  | step _hm ihm => exact (fuelMono dp _).1 _ _ _ _ ihm

theorem wvFuel_mono_le (dp : Bool) {k k' : Nat} (hk : k ≤ k')
    {e : List Char} {n : ExpressionNode} {v : Bool} {bs : List Bool}
    (h : wvFuel dp k e n v = some bs) : wvFuel dp k' e n v = some bs := by
  induction hk with
  | refl => exact h
  | step _hm ihm => exact (fuelMono dp _).2 _ _ _ _ ihm

theorem evalBody_sound (dp : Bool)
    (recE : List Char → ExpressionNode → Bool → Option Bool)
    (recW : List Char → ExpressionNode → Bool → Option (List Bool))
    (hE : ∀ e n v b, recE e n v = some b → __evaluateExpression dp e n v = b)
    (hW : ∀ e n v bs, recW e n v = some bs → wildcardVeredicts dp e n v = bs) :
    ∀ e n v b, evalBody dp recE recW e n v = some b → __evaluateExpression dp e n v = b := by
  intro e n v b h
  unfold evalBody at h
  cases e with
  | nil =>
    rw [eval_nil]
    cases hA : anchorCheck n [] with
    | some r => simp only [hA] at h ⊢; exact Option.some.inj h
    | none => simp only [hA] at h ⊢; exact Option.some.inj h
  | cons c rest =>
    rw [eval_cons]
    rw [anchorCheck_cons] at h
    simp only at h
    cases hst : lookupChild n.children '*' with
    | none =>
      simp only [hst] at h ⊢
      cases hlit : lookupChild n.children c with
      | none => simp only [hlit] at h ⊢; exact Option.some.inj h
      | some child => simp only [hlit] at h ⊢; exact hE _ _ _ _ h
    | some w =>
      cases hwv : recW (c :: rest) w (foldFlags n v) with
      | none => simp [hst, hwv] at h
      | some vs =>
        have hvs := hW _ _ _ _ hwv
        simp only [hst, hwv] at h
        simp only [hst, hvs]
        cases hlit : lookupChild n.children c with
        | none => simp only [hlit] at h ⊢; exact Option.some.inj h
        | some child => simp only [hlit] at h ⊢; exact hE _ _ _ _ h

theorem wvBody_sound (dp : Bool)
    (recE : List Char → ExpressionNode → Bool → Option Bool)
    (recW : List Char → ExpressionNode → Bool → Option (List Bool))
    (hE : ∀ e n v b, recE e n v = some b → __evaluateExpression dp e n v = b)
    (hW : ∀ e n v bs, recW e n v = some bs → wildcardVeredicts dp e n v = bs) :
    ∀ e n v bs, wvBody recE recW e n v = some bs → wildcardVeredicts dp e n v = bs := by
  intro e n v bs h
  cases e with
  | nil =>
    rw [wildcardVeredicts_nil]
    exact Option.some.inj h
  | cons c rest =>
    unfold wvBody at h
    cases h1 : recE (c :: rest) n v with
    | none => simp [h1] at h
    | some b =>
      cases h2 : recW rest n v with
      | none => simp [h1, h2] at h
      | some bs' =>
        simp only [h1, h2] at h
        rw [wildcardVeredicts_cons, hE _ _ _ _ h1, hW _ _ _ _ h2]
        exact Option.some.inj h

theorem fuelSound (dp : Bool) : ∀ fuel : Nat,
    (∀ e n v b, evalFuel dp fuel e n v = some b → __evaluateExpression dp e n v = b)
  ∧ (∀ e n v bs, wvFuel dp fuel e n v = some bs → wildcardVeredicts dp e n v = bs) := by
  intro fuel
  induction fuel with
  | zero =>
    constructor
    · intro e n v b h; simp [evalFuel] at h
    · intro e n v bs h; simp [wvFuel] at h
  | succ fuel ih =>
    constructor
    · intro e n v b h
      rw [evalFuel_succ] at h
      exact evalBody_sound dp _ _ ih.1 ih.2 e n v b h
    · intro e n v bs h
      rw [wvFuel_succ] at h
      exact wvBody_sound dp _ _ ih.1 ih.2 e n v bs h

/-- Any fuel computation that produces a result agrees with the total
evaluator; used to evaluate `__evaluateExpression` on concrete inputs. -/
theorem evalFuel_sound (dp : Bool) (fuel : Nat) {e : List Char} {n : ExpressionNode}
    {v b : Bool} (h : evalFuel dp fuel e n v = some b) :
    __evaluateExpression dp e n v = b :=
  (fuelSound dp fuel).1 _ _ _ _ h

theorem evalBody_nil_complete (dp : Bool)
    (recE : List Char → ExpressionNode → Bool → Option Bool)
    (recW : List Char → ExpressionNode → Bool → Option (List Bool))
    (n : ExpressionNode) (v : Bool) :
    evalBody dp recE recW [] n v = some (__evaluateExpression dp [] n v) := by
  unfold evalBody
  rw [eval_nil]
  cases hA : anchorCheck n [] <;> simp [hA]

theorem evalBody_cons_complete (dp : Bool)
    (recE : List Char → ExpressionNode → Bool → Option Bool)
    (recW : List Char → ExpressionNode → Bool → Option (List Bool))
    (c : Char) (rest : List Char) (n : ExpressionNode) (v : Bool)
    (hW : ∀ w u, lookupChild n.children '*' = some w →
        recW (c :: rest) w u = some (wildcardVeredicts dp (c :: rest) w u))
    (hE : ∀ child u, lookupChild n.children c = some child →
        recE rest child u = some (__evaluateExpression dp rest child u)) :
    evalBody dp recE recW (c :: rest) n v =
      some (__evaluateExpression dp (c :: rest) n v) := by
  unfold evalBody
  rw [eval_cons, anchorCheck_cons]
  cases hst : lookupChild n.children '*' with
  | none =>
    simp only [hst]
    cases hlit : lookupChild n.children c with
    | none => simp [hlit]
    | some child => simp only [hlit]; exact hE child _ hlit
  | some w =>
    have hw := hW w (foldFlags n v) hst
    simp only [hst, hw]
    cases hlit : lookupChild n.children c with
    | none => simp [hlit]
    | some child => simp only [hlit]; exact hE child _ hlit

theorem evalFuel_complete_aux (dp : Bool) :
    ∀ N : Nat, ∀ n : ExpressionNode, sizeOf n < N →
      ∀ e v, ∃ fuel, evalFuel dp fuel e n v = some (__evaluateExpression dp e n v) := by
  intro N
  induction N with
  | zero => intro n h; omega
  | succ N ih =>
    intro n hn e v
    have hwv : ∀ w, sizeOf w < sizeOf n → ∀ e' u, ∃ fuel,
        wvFuel dp fuel e' w u = some (wildcardVeredicts dp e' w u) := by
      intro w hw e'
      induction e' with
      | nil =>
        intro u
        exact ⟨1, by rw [wvFuel_succ, wildcardVeredicts_nil]; rfl⟩
      | cons c rest ihe =>
        intro u
        obtain ⟨k1, h1⟩ := ih w (by omega) (c :: rest) u
        obtain ⟨k2, h2⟩ := ihe u
        refine ⟨max k1 k2 + 1, ?_⟩
        have h1' := evalFuel_mono_le dp (le_max_left k1 k2) h1
        have h2' := wvFuel_mono_le dp (le_max_right k1 k2) h2
        rw [wvFuel_succ, wildcardVeredicts_cons]
        unfold wvBody
        simp [h1', h2']
    cases e with
    | nil => exact ⟨1, by rw [evalFuel_succ]; exact evalBody_nil_complete dp _ _ n v⟩
    | cons c rest =>
      cases hst : lookupChild n.children '*' with
      | none =>
        cases hlit : lookupChild n.children c with
        | none =>
          refine ⟨1, ?_⟩
          rw [evalFuel_succ]
          refine evalBody_cons_complete dp _ _ c rest n v ?_ ?_
          · intro w u hw; rw [hst] at hw; cases hw
          · intro child u hc; rw [hlit] at hc; cases hc
        | some child =>
          have hcs : sizeOf child < sizeOf n := lookupChild_node_sizeOf hlit
          obtain ⟨ka, hka⟩ := ih child (by omega) rest true
          obtain ⟨kb, hkb⟩ := ih child (by omega) rest false
          refine ⟨max ka kb + 1, ?_⟩
          rw [evalFuel_succ]
          refine evalBody_cons_complete dp _ _ c rest n v ?_ ?_
          · intro w u hw; rw [hst] at hw; cases hw
          · intro child' u hc
            rw [hlit] at hc
            cases hc
            cases u
            · exact evalFuel_mono_le dp (le_max_right ka kb) hkb
            · exact evalFuel_mono_le dp (le_max_left ka kb) hka
      | some w =>
        have hws : sizeOf w < sizeOf n := lookupChild_node_sizeOf hst
        obtain ⟨ka, hka⟩ := hwv w hws (c :: rest) true
        obtain ⟨kb, hkb⟩ := hwv w hws (c :: rest) false
        cases hlit : lookupChild n.children c with
        | none =>
          refine ⟨max ka kb + 1, ?_⟩
          rw [evalFuel_succ]
          refine evalBody_cons_complete dp _ _ c rest n v ?_ ?_
          · intro w' u hw'
            rw [hst] at hw'
            cases hw'
            cases u
            · exact wvFuel_mono_le dp (le_max_right ka kb) hkb
            · exact wvFuel_mono_le dp (le_max_left ka kb) hka
          · intro child u hc; rw [hlit] at hc; cases hc
        | some child =>
          have hcs : sizeOf child < sizeOf n := lookupChild_node_sizeOf hlit
          obtain ⟨kc, hkc⟩ := ih child (by omega) rest true
          obtain ⟨kd, hkd⟩ := ih child (by omega) rest false
          refine ⟨max (max ka kb) (max kc kd) + 1, ?_⟩
          rw [evalFuel_succ]
          refine evalBody_cons_complete dp _ _ c rest n v ?_ ?_
          · intro w' u hw'
            rw [hst] at hw'
            cases hw'
            cases u
            · exact wvFuel_mono_le dp (le_trans (le_max_right ka kb) (le_max_left _ _)) hkb
            · exact wvFuel_mono_le dp (le_trans (le_max_left ka kb) (le_max_left _ _)) hka
          · intro child' u hc
            rw [hlit] at hc
            cases hc
            cases u
            · exact evalFuel_mono_le dp (le_trans (le_max_right kc kd) (le_max_right _ _)) hkd
            · exact evalFuel_mono_le dp (le_trans (le_max_left kc kd) (le_max_right _ _)) hkc

/-- The recursion of `__evaluateExpression` always bottoms out: some
finite fuel suffices to compute its value. -/
theorem evalFuel_complete (dp : Bool) (n : ExpressionNode) (e : List Char) (v : Bool) :
    ∃ fuel, evalFuel dp fuel e n v = some (__evaluateExpression dp e n v) :=
  evalFuel_complete_aux dp (sizeOf n + 1) n (by omega) e v

theorem evaluateExpression_of_fuel (t : ExpressionTree) (p : String) (fuel : Nat) (b : Bool)
    (h : evalFuel t.DEFAULT_PERMISSION fuel p.data t.root t.DEFAULT_PERMISSION = some b) :
    t.evaluateExpression p = b :=
  evalFuel_sound _ fuel h

theorem isAllowed_of_fuel (P : Permissions) (p : String) (fuel : Nat) (b : Bool)
    (h : evalFuel P.trie.DEFAULT_PERMISSION fuel p.data P.trie.root P.trie.DEFAULT_PERMISSION = some b) :
    P.isAllowed p = b :=
  evalFuel_sound _ fuel h

theorem lookupChild_setChild_self (cs : List (Char × ExpressionNode)) (c : Char)
    (x : ExpressionNode) : lookupChild (setChild cs c x) c = some x := by
  induction cs with
  | nil => simp [setChild, lookupChild]
  | cons hd tl ih =>
    obtain ⟨c', n'⟩ := hd
    by_cases h1 : c = c'
    · simp [setChild, h1, lookupChild]
    · by_cases h2 : c < c'
      · simp [setChild, h1, h2, lookupChild]
      · simp [setChild, h1, h2, lookupChild, ih]

theorem lookupChild_setChild_ne (cs : List (Char × ExpressionNode)) (c c' : Char)
    (x : ExpressionNode) (h : c' ≠ c) :
    lookupChild (setChild cs c x) c' = lookupChild cs c' := by
  induction cs with
  | nil => simp [setChild, lookupChild, h]
  | cons hd tl ih =>
    obtain ⟨c₀, n₀⟩ := hd
    by_cases h1 : c = c₀
    · subst h1
      simp [setChild, lookupChild, h]
    · by_cases h2 : c < c₀
      · simp [setChild, h1, h2, lookupChild, h]
      · simp [setChild, h1, h2, lookupChild, ih]

theorem setChild_setChild_self (cs : List (Char × ExpressionNode)) (c : Char)
    (x y : ExpressionNode) : setChild (setChild cs c x) c y = setChild cs c y := by
  induction cs with
  | nil => simp [setChild]
  | cons hd tl ih =>
    obtain ⟨c₀, n₀⟩ := hd
    by_cases h1 : c = c₀
    · simp [setChild, h1]
    · by_cases h2 : c < c₀
      · simp [setChild, h1, h2, lt_irrefl]
      · simp [setChild, h1, h2, ih]

theorem setChild_comm (cs : List (Char × ExpressionNode)) (c1 c2 : Char)
    (x y : ExpressionNode) (h : c1 ≠ c2) :
    setChild (setChild cs c1 x) c2 y = setChild (setChild cs c2 y) c1 x := by
  induction cs with
  | nil =>
    rcases lt_or_gt_of_ne h with hlt | hgt
    · simp [setChild, h, Ne.symm h, hlt, not_lt_of_gt hlt]
    · simp [setChild, h, Ne.symm h, hgt, not_lt_of_gt hgt]
  | cons hd tl ih =>
    obtain ⟨c₀, n₀⟩ := hd
    by_cases h1 : c1 = c₀
    · subst h1
      have h2 : ¬ c2 = c1 := Ne.symm h
      by_cases h3 : c2 < c1
      · simp [setChild, h2, h3, h, Ne.symm h, not_lt_of_gt h3]
      · simp [setChild, h2, h3, h, Ne.symm h]
    · by_cases h2 : c2 = c₀
      · subst h2
        by_cases h3 : c1 < c2
        · simp [setChild, h1, h3, h, Ne.symm h, not_lt_of_gt h3]
        · simp [setChild, h1, h3, h, Ne.symm h]
      · by_cases h3 : c1 < c₀
        · by_cases h4 : c2 < c₀
          · rcases lt_or_gt_of_ne h with hlt | hgt
            · simp [setChild, h1, h2, h3, h4, h, Ne.symm h, hlt, not_lt_of_gt hlt]
            · simp [setChild, h1, h2, h3, h4, h, Ne.symm h, hgt, not_lt_of_gt hgt]
          · have h5 : c1 < c2 := lt_of_lt_of_le h3 (not_lt.mp h4)
            simp [setChild, h1, h2, h3, h4, h, Ne.symm h, h5, le_of_lt h5]
        · by_cases h4 : c2 < c₀
          · have h5 : c2 < c1 := lt_of_lt_of_le h4 (not_lt.mp h3)
            simp [setChild, h1, h2, h3, h4, h, Ne.symm h, h5, not_lt_of_gt h5]
          · simp [setChild, h1, h2, h3, h4, ih]

theorem addExpressionAux_cons (n : ExpressionNode) (c : Char) (cs : List Char) (k : String) :
    addExpressionAux n (c :: cs) k =
      n.withChildren (setChild n.children c
        (match cs with
         | [] => setFlags (match lookupChild n.children c with
                 | some u => u
                 | none => ExpressionNode.new (String.singleton c)) k
         | _ :: _ => addExpressionAux (match lookupChild n.children c with
                 | some u => u
                 | none => ExpressionNode.new (String.singleton c)) cs k)) := rfl

theorem setFlags_comm (u : ExpressionNode) (k1 k2 : String) :
    setFlags (setFlags u k1) k2 = setFlags (setFlags u k2) k1 := by
  obtain ⟨v, a, d, cs⟩ := u
  by_cases h1 : k1 = "allow" <;> by_cases h2 : k2 = "allow" <;>
    by_cases h3 : k1 = "disallow" <;> by_cases h4 : k2 = "disallow" <;>
      simp [setFlags, h1, h2, h3, h4, ExpressionNode.withAllowFlag,
        ExpressionNode.withDisallowFlag]

theorem setFlags_withChildren (u : ExpressionNode) (cs : List (Char × ExpressionNode))
    (k : String) :
    (setFlags u k).withChildren cs = setFlags (u.withChildren cs) k := by
  obtain ⟨v, a, d, cs₀⟩ := u
  by_cases h1 : k = "allow" <;> by_cases h2 : k = "disallow" <;>
    simp [setFlags, h1, h2, ExpressionNode.withAllowFlag, ExpressionNode.withDisallowFlag,
      ExpressionNode.withChildren]

theorem addExpressionAux_allowFlag (n : ExpressionNode) (p : List Char) (k : String) :
    (addExpressionAux n p k).allowFlag = n.allowFlag := by
  cases p with
  | nil => rfl
  | cons c cs => rw [addExpressionAux_cons, withChildren_allowFlag]

theorem addExpressionAux_disallowFlag (n : ExpressionNode) (p : List Char) (k : String) :
    (addExpressionAux n p k).disallowFlag = n.disallowFlag := by
  cases p with
  | nil => rfl
  | cons c cs => rw [addExpressionAux_cons, withChildren_disallowFlag]

theorem addExpressionAux_setFlags (u : ExpressionNode) (k : String) (c : Char)
    (cs : List Char) (k2 : String) :
    addExpressionAux (setFlags u k) (c :: cs) k2
      = setFlags (addExpressionAux u (c :: cs) k2) k := by
  rw [addExpressionAux_cons, addExpressionAux_cons, setFlags_children, setFlags_withChildren]

theorem addExpressionAux_comm (p1 : List Char) :
    ∀ (k1 : String) (p2 : List Char) (k2 : String) (n : ExpressionNode),
      addExpressionAux (addExpressionAux n p1 k1) p2 k2
        = addExpressionAux (addExpressionAux n p2 k2) p1 k1 := by
  induction p1 with
  | nil => intro k1 p2 k2 n; rfl
  | cons c1 cs1 ih =>
    intro k1 p2 k2 n
    cases p2 with
    | nil => rfl
    | cons c2 cs2 =>
      by_cases hc : c2 = c1
      · subst hc
        simp only [addExpressionAux_cons, withChildren_children,
          lookupChild_setChild_self, withChildren_withChildren, setChild_setChild_self]
        congr 1
        congr 1
        cases cs1 with
        | nil =>
          cases cs2 with
          | nil => dsimp only; exact setFlags_comm _ k1 k2
          | cons c cs => dsimp only; exact addExpressionAux_setFlags _ k1 c cs k2
        | cons c cs =>
          cases cs2 with
          | nil => dsimp only; exact (addExpressionAux_setFlags _ k2 c cs k1).symm
          | cons c' cs' => dsimp only; exact ih k1 (c' :: cs') k2 _
      · simp only [addExpressionAux_cons, withChildren_children,
          lookupChild_setChild_ne _ _ _ _ hc,
          lookupChild_setChild_ne _ _ _ _ (Ne.symm hc),
          withChildren_withChildren]
        rw [setChild_comm _ _ _ _ _ (Ne.symm hc)]

theorem addExpression_comm (t : ExpressionTree) (r1 r2 : String × String) :
    (t.addExpression r1.1 r1.2).addExpression r2.1 r2.2
      = (t.addExpression r2.1 r2.2).addExpression r1.1 r1.2 := by
  simp only [ExpressionTree.addExpression]
  rw [addExpressionAux_comm]

theorem applyAll_cons (t : ExpressionTree) (r : String × String)
    (L : List (String × String)) :
    applyAll t (r :: L) = applyAll (t.addExpression r.1 r.2) L := rfl

theorem applyAll_perm (t : ExpressionTree) {L1 L2 : List (String × String)}
    (h : L1.Perm L2) : applyAll t L1 = applyAll t L2 := by
  induction h generalizing t with
  | nil => rfl
  | cons x _ ih => rw [applyAll_cons, applyAll_cons, ih]
  | swap x y l => rw [applyAll_cons, applyAll_cons, addExpression_comm]; rfl
  | trans _ _ ih1 ih2 => rw [ih1, ih2]

/-- C10: the `Permissions` constructor hard-codes the default permission
to `true` (it is not a parameter of the facade), so a freshly constructed
matcher with no `addPath` calls answers `true` for every path: the root has
no children, so evaluation falls through every branch and returns the
seeded default verdict. -/
theorem claim_C10 (p : String) : Permissions.new.isAllowed p = true := by
  show __evaluateExpression true p.data (ExpressionNode.new "") true = true
  cases hp : p.data with
  | nil => exact evalFuel_sound true 2 (by decide)
  | cons c rest =>
    rw [eval_cons]
    simp [ExpressionNode.new, ExpressionNode.children_mk, lookupChild, foldFlags,
      ExpressionNode.allowFlag_mk, ExpressionNode.disallowFlag_mk]

/-- C1: the spec claims longest-match precedence: after `disallow("/a")`
then `allow("/a/b")`, `isAllowed("/a/b")` is claimed `true` for either
default permission.  With the facade's default permission (`true`) the
code returns `false`: the empty-expression base case of
`__evaluateExpression` consults only `disallowFlag` when the default is
`true`, so the `allowFlag` set on the terminal `b` node is never read and
the inherited `false` verdict from the `/a` disallow survives.  This
evaluates the code at the failing input; the claim's other half,
`isAllowed("/a/x") = false`, does hold there (second conjunct). -/
theorem claim_C1 :
    ((Permissions.new.addPath "/a" "disallow").addPath "/a/b" "allow").isAllowed "/a/b" = false
  ∧ ((Permissions.new.addPath "/a" "disallow").addPath "/a/b" "allow").isAllowed "/a/x" = false :=
  ⟨isAllowed_of_fuel _ _ 20 _ (by decide), isAllowed_of_fuel _ _ 20 _ (by decide)⟩

/-- C2: the spec claims that inserting the same pattern both as `allow`
and as `disallow` (either order) makes `isAllowed` of that pattern `true`.
With the facade's default permission (`true`) the code returns `false` for
pattern `"a"`: the allow-wins flag fold is only applied to nodes passed
with a non-empty remaining expression, while the terminal node is handled
by the base case, which under default `true` checks only `disallowFlag`.
Both insertion orders are evaluated at the failing input. -/
theorem claim_C2 :
    ((Permissions.new.addPath "a" "allow").addPath "a" "disallow").isAllowed "a" = false
  ∧ ((Permissions.new.addPath "a" "disallow").addPath "a" "allow").isAllowed "a" = false :=
  ⟨isAllowed_of_fuel _ _ 20 _ (by decide), isAllowed_of_fuel _ _ 20 _ (by decide)⟩

/-- C4: evaluation is total and its recursion terminates: for every tree
(hence every tree built by any finite sequence of insertions) and every
path, some finite fuel makes the fuel-cut evaluator return `some` of the
value of the total evaluator — i.e. the recursion of the source bottoms
out and produces a boolean, with no failure path. -/
theorem claim_C4 (t : ExpressionTree) (p : String) :
    ∃ fuel, evalFuel t.DEFAULT_PERMISSION fuel p.data t.root t.DEFAULT_PERMISSION
      = some (t.evaluateExpression p) :=
  evalFuel_complete _ _ _ _

/-- C8: insertion order does not matter: two permutation-equivalent rule
sequences build matchers that answer every query identically (with the
canonical children-map representation the two trees are in fact equal,
proved via commutativity of single insertions). -/
theorem claim_C8 (dp : Bool) (L1 L2 : List (String × String)) (h : L1.Perm L2)
    (p : String) :
    (applyAll (ExpressionTree.new dp) L1).evaluateExpression p
      = (applyAll (ExpressionTree.new dp) L2).evaluateExpression p := by
  rw [applyAll_perm _ h]

theorem claim_C8_witness :
    (([("/a", "disallow"), ("/b", "allow")] : List (String × String)).Perm
        [("/b", "allow"), ("/a", "disallow")])
  ∧ (applyAll (ExpressionTree.new true)
        [("/a", "disallow"), ("/b", "allow")]).evaluateExpression "/a"
      = (applyAll (ExpressionTree.new true)
        [("/b", "allow"), ("/a", "disallow")]).evaluateExpression "/a" :=
  ⟨List.Perm.swap _ _ _, claim_C8 true _ _ (List.Perm.swap _ _ _) "/a"⟩

theorem setFlags_id (n : ExpressionNode) (k : String) (h1 : k ≠ "allow")
    (h2 : k ≠ "disallow") : setFlags n k = n := by
  unfold setFlags
  rw [if_neg h1, if_neg h2]

theorem applyAll_dp (t : ExpressionTree) (L : List (String × String)) :
    (applyAll t L).DEFAULT_PERMISSION = t.DEFAULT_PERMISSION := by
  induction L generalizing t with
  | nil => rfl
  | cons r L ih => rw [applyAll_cons, ih]; rfl

theorem inv_insert (n : ExpressionNode) (l : List Char) (k : String)
    (hp : ¬(l = ['$'] ∧ (k = "allow" ∨ k = "disallow")))
    (ha : n.allowFlag = false) (hd : n.disallowFlag = false)
    (hdol : ∀ u, lookupChild n.children '$' = some u →
        u.allowFlag = false ∧ u.disallowFlag = false) :
    (addExpressionAux n l k).allowFlag = false
  ∧ (addExpressionAux n l k).disallowFlag = false
  ∧ (∀ u, lookupChild (addExpressionAux n l k).children '$' = some u →
        u.allowFlag = false ∧ u.disallowFlag = false) := by
  cases l with
  | nil => exact ⟨ha, hd, hdol⟩
  | cons c cs =>
    rw [addExpressionAux_cons]
    refine ⟨by rw [withChildren_allowFlag]; exact ha,
            by rw [withChildren_disallowFlag]; exact hd, ?_⟩
    intro u hu
    rw [withChildren_children] at hu
    by_cases hc : ('$' : Char) = c
    · subst hc
      rw [lookupChild_setChild_self] at hu
      cases cs with
      | nil =>
        have hk1 : k ≠ "allow" := by
          intro hk; exact hp ⟨rfl, Or.inl hk⟩
        have hk2 : k ≠ "disallow" := by
          intro hk; exact hp ⟨rfl, Or.inr hk⟩
        rw [Option.some.injEq] at hu
        subst hu
        dsimp only
        rw [setFlags_id _ _ hk1 hk2]
        cases hch : lookupChild n.children '$' with
        | some u₀ => exact hdol u₀ hch
        | none => exact ⟨rfl, rfl⟩
      | cons c' cs' =>
        rw [Option.some.injEq] at hu
        subst hu
        dsimp only
        rw [addExpressionAux_allowFlag, addExpressionAux_disallowFlag]
        cases hch : lookupChild n.children '$' with
        | some u₀ => exact hdol u₀ hch
        | none => exact ⟨rfl, rfl⟩
    · rw [lookupChild_setChild_ne _ _ _ _ hc] at hu
      exact hdol u hu

theorem eval_nil_default (dp : Bool) (n : ExpressionNode)
    (ha : n.allowFlag = false) (hd : n.disallowFlag = false)
    (hdol : ∀ u, lookupChild n.children '$' = some u →
        u.allowFlag = false ∧ u.disallowFlag = false) :
    __evaluateExpression dp [] n dp = dp := by
  rw [eval_nil]
  cases hq : lookupChild n.children '$' with
  | none => simp [anchorCheck, hq, ha, hd]
  | some u =>
    obtain ⟨h1, h2⟩ := hdol u hq
    simp [anchorCheck, hq, h1, h2, ha, hd]

theorem applyAll_inv (L : List (String × String)) :
    ∀ t : ExpressionTree,
      (∀ r ∈ L, ¬(r.1 = "$" ∧ (r.2 = "allow" ∨ r.2 = "disallow"))) →
      t.root.allowFlag = false → t.root.disallowFlag = false →
      (∀ u, lookupChild t.root.children '$' = some u →
          u.allowFlag = false ∧ u.disallowFlag = false) →
      (applyAll t L).root.allowFlag = false
    ∧ (applyAll t L).root.disallowFlag = false
    ∧ (∀ u, lookupChild (applyAll t L).root.children '$' = some u →
          u.allowFlag = false ∧ u.disallowFlag = false) := by
  induction L with
  | nil => intro t _ ha hd hdol; exact ⟨ha, hd, hdol⟩
  | cons r L ih =>
    intro t hL ha hd hdol
    have hp : ¬(r.1.data = ['$'] ∧ (r.2 = "allow" ∨ r.2 = "disallow")) := by
      rintro ⟨hd1, hd2⟩
      apply hL r (List.mem_cons_self r L)
      refine ⟨?_, hd2⟩
      apply String.ext
      rw [hd1]
    obtain ⟨h1, h2, h3⟩ := inv_insert t.root r.1.data r.2 hp ha hd hdol
    rw [applyAll_cons]
    exact ih _ (fun r' hr' => hL r' (List.mem_cons_of_mem _ hr')) h1 h2 h3

/-- C6 (counterexample): the claim says `isAllowed("")` always returns
the default permission (true for the facade) for every matcher built by
insertions.  But inserting the one-character pattern `"$"` as `disallow`
gives the root a `$` child with `disallowFlag` set, and the anchor check
fires on the empty path before the base case: `isAllowed("")` is `false`,
not the default `true`. -/
theorem claim_C6_counterexample :
    (Permissions.new.addPath "$" "disallow").isAllowed "" = false :=
  isAllowed_of_fuel _ _ 5 _ (by decide)

/-- C6 (amended): for every matcher built by insertions none of which is
the pattern `"$"` with a valid rule kind, evaluating the empty path falls
through to the base case at the root and returns the default permission.
(The root's own flags are indeed never set — empty-pattern insertions are
no-ops and non-empty ones only flag child nodes — but the claim's
unrestricted statement fails because a `"$"` rule plants a flagged `$`
child directly under the root, which the anchor check consults even on
the empty path.) -/
theorem claim_C6_amended (dp : Bool) (L : List (String × String))
    (h : ∀ r ∈ L, ¬(r.1 = "$" ∧ (r.2 = "allow" ∨ r.2 = "disallow"))) :
    (applyAll (ExpressionTree.new dp) L).evaluateExpression "" = dp := by
  have hroot : (ExpressionTree.new dp).root.allowFlag = false ∧
      (ExpressionTree.new dp).root.disallowFlag = false := ⟨rfl, rfl⟩
  have hdol : ∀ u, lookupChild (ExpressionTree.new dp).root.children '$' = some u →
      u.allowFlag = false ∧ u.disallowFlag = false := by
    intro u hu
    simp [ExpressionTree.new, ExpressionNode.new, ExpressionNode.children_mk,
      lookupChild] at hu
  obtain ⟨h1, h2, h3⟩ := applyAll_inv L (ExpressionTree.new dp) h hroot.1 hroot.2 hdol
  have hdp := applyAll_dp (ExpressionTree.new dp) L
  unfold ExpressionTree.evaluateExpression
  rw [hdp]
  show __evaluateExpression dp [] (applyAll (ExpressionTree.new dp) L).root dp = dp
  exact eval_nil_default dp _ h1 h2 h3

theorem claim_C6_witness :
    (∀ r ∈ ([("/a", "disallow")] : List (String × String)),
        ¬(r.1 = "$" ∧ (r.2 = "allow" ∨ r.2 = "disallow")))
  ∧ (applyAll (ExpressionTree.new true) [("/a", "disallow")]).evaluateExpression "" = true :=
  ⟨by decide, claim_C6_amended true _ (by decide)⟩

/-- C5: anchor exactness.  For either default permission, after
`disallow("/a$")`: `isAllowed("/a")` is `false`, and `isAllowed("/ab")`
equals the default (the anchored rule does not affect it).  The third
conjunct states the anchor's absolute priority in general: on an empty
remaining path, a `$` child with `allowFlag` set makes evaluation return
`true` immediately, and one with only `disallowFlag` set makes it return
`false` immediately — regardless of the node's own flags, its other
children, and the running verdict (the allow check comes first, so a `$`
child with both flags yields `true`). -/
theorem claim_C5 (dp : Bool) :
    ((ExpressionTree.new dp).addExpression "/a$" "disallow").evaluateExpression "/a" = false
  ∧ ((ExpressionTree.new dp).addExpression "/a$" "disallow").evaluateExpression "/ab" = dp
  ∧ (∀ (n eol : ExpressionNode) (v : Bool),
      lookupChild n.children '$' = some eol →
        (eol.allowFlag = true → __evaluateExpression dp [] n v = true)
      ∧ (eol.allowFlag = false → eol.disallowFlag = true →
          __evaluateExpression dp [] n v = false)) := by
  refine ⟨?_, ?_, ?_⟩
  · cases dp <;> exact evaluateExpression_of_fuel _ _ 20 _ (by decide)
  · cases dp <;> exact evaluateExpression_of_fuel _ _ 20 _ (by decide)
  · intro n eol v h
    constructor
    · intro hall
      rw [eval_nil]
      simp [anchorCheck, h, hall]
    · intro hall hdis
      rw [eval_nil]
      simp [anchorCheck, h, hall, hdis]

theorem claim_C5_witness :
    (lookupChild (ExpressionNode.mk "" false false
        [('$', ExpressionNode.mk "$" false true [])]).children '$'
      = some (ExpressionNode.mk "$" false true []))
  ∧ __evaluateExpression true []
      (ExpressionNode.mk "" false false [('$', ExpressionNode.mk "$" false true [])])
      true = false :=
  ⟨by rfl,
   ((claim_C5 true).2.2 _ _ true (by rfl)).2 (by rfl) (by rfl)⟩

theorem wildcardVeredicts_eq_rangeMap (dp : Bool) (e : List Char)
    (w : ExpressionNode) (v : Bool) :
    wildcardVeredicts dp e w v
      = (List.range e.length).map (fun i => __evaluateExpression dp (e.drop i) w v) := by
  induction e with
  | nil => rw [wildcardVeredicts_nil]; rfl
  | cons c rest ih =>
    rw [wildcardVeredicts_cons, ih]
    rw [List.length_cons, List.range_succ_eq_map]
    simp [List.map_map, Function.comp_def, List.drop_succ_cons]

/-- C3 (amended): the wildcard step runs only when the remaining path is
non-empty, and the collected verdicts range over the start offsets `0` to
`len(remainingPath) - 1` inclusive — the empty suffix (offset
`len(remainingPath)`) is NOT evaluated.  In that range the claim's
description is exact: one boolean per offset in increasing offset order,
the first one differing from the default permission becomes the new
running verdict (`pickVeredict`), and the verdict is unchanged when all
equal the default. -/
theorem claim_C3_amended (dp v : Bool) (c : Char) (rest : List Char)
    (n wc : ExpressionNode) (h : lookupChild n.children '*' = some wc) :
    __evaluateExpression dp (c :: rest) n v =
      (let newVeredict := foldFlags n v
       let veredicts := (List.range (c :: rest).length).map
         (fun i => __evaluateExpression dp ((c :: rest).drop i) wc newVeredict)
       let v2 := pickVeredict dp veredicts newVeredict
       match lookupChild n.children c with
       | some child => __evaluateExpression dp rest child v2
       | none => v2) := by
  rw [eval_cons, h]
  dsimp only
  rw [wildcardVeredicts_eq_rangeMap]

/-- C3 (counterexample): after `disallow("*$")` the code answers
`isAllowed("b") = true` (first conjunct), but under the claimed inclusive
offset range 0..len the collected verdicts for the `*` child would be
`[true, false]` and the first non-default one, `false`, would become the
running verdict (second conjunct) — which, the root having no literal `b`
child, evaluation would then return.  So evaluation does not include the
empty suffix at offset `len(remainingPath)`.  The third conjunct pins the
`*` child of the actual tree to the node used in the second conjunct. -/
theorem claim_C3_counterexample :
    (Permissions.new.addPath "*$" "disallow").isAllowed "b" = true
  ∧ pickVeredict true
      ((List.range (List.length (['b'] : List Char) + 1)).map
        (fun i => __evaluateExpression true (List.drop i ['b'])
          (ExpressionNode.mk "*" false false [('$', ExpressionNode.mk "$" false true [])])
          true))
      true = false
  ∧ lookupChild (Permissions.new.addPath "*$" "disallow").trie.root.children '*'
      = some (ExpressionNode.mk "*" false false
          [('$', ExpressionNode.mk "$" false true [])]) := by
  refine ⟨isAllowed_of_fuel _ _ 20 _ (by decide), ?_, by rfl⟩
  have h1 : __evaluateExpression true ['b']
      (ExpressionNode.mk "*" false false [('$', ExpressionNode.mk "$" false true [])])
      true = true := evalFuel_sound true 10 (by decide)
  have h2 : __evaluateExpression true []
      (ExpressionNode.mk "*" false false [('$', ExpressionNode.mk "$" false true [])])
      true = false := evalFuel_sound true 10 (by decide)
  have hr : List.range (List.length (['b'] : List Char) + 1) = [0, 1] := by decide
  rw [hr]
  simp only [List.map_cons, List.map_nil, List.drop]
  rw [h1, h2]
  decide

theorem claim_C3_witness :
    (lookupChild (ExpressionNode.mk "" false false
        [('*', ExpressionNode.mk "*" false false [])]).children '*'
      = some (ExpressionNode.mk "*" false false []))
  ∧ __evaluateExpression true ['b']
      (ExpressionNode.mk "" false false [('*', ExpressionNode.mk "*" false false [])]) true
    = (let newVeredict := foldFlags (ExpressionNode.mk "" false false
          [('*', ExpressionNode.mk "*" false false [])]) true
       let veredicts := (List.range (('b' :: []) : List Char).length).map
         (fun i => __evaluateExpression true (('b' :: []).drop i)
            (ExpressionNode.mk "*" false false []) newVeredict)
       let v2 := pickVeredict true veredicts newVeredict
       match lookupChild (ExpressionNode.mk "" false false
          [('*', ExpressionNode.mk "*" false false [])]).children 'b' with
       | some child => __evaluateExpression true [] child v2
       | none => v2) :=
  ⟨by rfl, claim_C3_amended true true 'b' [] _ _ (by rfl)⟩

theorem runOps_append (P : Permissions) (l1 l2 : List Op) :
    runOps P (l1 ++ l2)
      = ((runOps (runOps P l1).1 l2).1,
         (runOps P l1).2 ++ (runOps (runOps P l1).1 l2).2) := by
  induction l1 generalizing P with
  | nil => simp [runOps]
  | cons op l1 ih =>
    cases op with
    | addPath p k => simp [runOps, ih]
    | isAllowed p => simp [runOps, ih]

/-- C9: evaluation is read-only.  In the embedding a query leaves the
matcher literally unchanged (first conjunct) — faithful to the source,
whose evaluator performs no assignment to any node field or tree field —
and consequently splicing an `isAllowed` call into any operation sequence
leaves the final matcher and all other query results exactly as they were,
merely inserting its own answer into the result list (second conjunct;
the third records the decomposition of the unspliced run). -/
theorem claim_C9 (P : Permissions) (pre post : List Op) (q : String) :
    (runOps P [Op.isAllowed q]).1 = P
  ∧ runOps P (pre ++ Op.isAllowed q :: post)
      = ((runOps P (pre ++ post)).1,
         (runOps P pre).2
           ++ (runOps P pre).1.isAllowed q :: (runOps (runOps P pre).1 post).2)
  ∧ runOps P (pre ++ post)
      = ((runOps (runOps P pre).1 post).1,
         (runOps P pre).2 ++ (runOps (runOps P pre).1 post).2) := by
  refine ⟨rfl, ?_, runOps_append P pre post⟩
  rw [runOps_append P pre (Op.isAllowed q :: post), runOps_append P pre post]
  simp [runOps]

theorem Ghost.allow_false {n : ExpressionNode} (h : Ghost n) : n.allowFlag = false := by
  cases h; assumption

theorem Ghost.disallow_false {n : ExpressionNode} (h : Ghost n) : n.disallowFlag = false := by
  cases h; assumption

theorem Ghost.child {n u : ExpressionNode} {c : Char} (h : Ghost n)
    (hc : lookupChild n.children c = some u) : Ghost u := by
  cases h with
  | intro n ha hd hch => exact hch c u hc

theorem GE.allow_eq {t t' : ExpressionNode} (h : GE t t') :
    t.allowFlag = t'.allowFlag := by
  cases h; assumption

theorem GE.disallow_eq {t t' : ExpressionNode} (h : GE t t') :
    t.disallowFlag = t'.disallowFlag := by
  cases h; assumption

theorem GE.child_some {t t' u u' : ExpressionNode} {c : Char} (h : GE t t')
    (h1 : lookupChild t.children c = some u)
    (h2 : lookupChild t'.children c = some u') : GE u u' := by
  cases h with
  | intro t t' ha hd hss hng hsub => exact hss c u u' h1 h2

theorem GE.none_ghost {t t' u' : ExpressionNode} {c : Char} (h : GE t t')
    (h1 : lookupChild t.children c = none)
    (h2 : lookupChild t'.children c = some u') : Ghost u' := by
  cases h with
  | intro t t' ha hd hss hng hsub => exact hng c u' h1 h2

theorem GE.sub {t t' u : ExpressionNode} {c : Char} (h : GE t t')
    (h1 : lookupChild t.children c = some u) :
    lookupChild t'.children c ≠ none := by
  cases h with
  | intro t t' ha hd hss hng hsub => exact hsub c u h1

theorem pickVeredict_replicate (dp : Bool) (k : Nat) (v : Bool) :
    pickVeredict dp (List.replicate k v) v = v := by
  induction k with
  | zero => rfl
  | succ k ih =>
    rw [List.replicate_succ]
    show (if (v != dp) then v else pickVeredict dp (List.replicate k v) v) = v
    split
    · rfl
    · exact ih

theorem eval_ghost_aux (dp : Bool) :
    ∀ N : Nat, ∀ n : ExpressionNode, sizeOf n < N → Ghost n →
      (∀ e v, __evaluateExpression dp e n v = v)
    ∧ (∀ e v, wildcardVeredicts dp e n v = List.replicate e.length v) := by
  intro N
  induction N with
  | zero => intro n h; omega
  | succ N ih =>
    intro n hn hg
    have hEval : ∀ e v, __evaluateExpression dp e n v = v := by
      intro e v
      cases e with
      | nil =>
        rw [eval_nil]
        have hA : anchorCheck n [] = none := by
          unfold anchorCheck
          cases hq : lookupChild n.children '$' with
          | none => rfl
          | some u =>
            have hgu := Ghost.child hg hq
            simp [Ghost.allow_false hgu, Ghost.disallow_false hgu]
        rw [hA]
        simp [Ghost.allow_false hg, Ghost.disallow_false hg]
      | cons c rest =>
        rw [eval_cons]
        have hff : foldFlags n v = v := by
          simp [foldFlags, Ghost.allow_false hg, Ghost.disallow_false hg]
        rw [hff]
        cases hst : lookupChild n.children '*' with
        | none =>
          simp only [hst]
          cases hlit : lookupChild n.children c with
          | none => simp
          | some child =>
            simp only [hlit]
            have hcs : sizeOf child < sizeOf n := lookupChild_node_sizeOf hlit
            exact (ih child (by omega) (Ghost.child hg hlit)).1 rest v
        | some w =>
          have hgw := Ghost.child hg hst
          have hsw : sizeOf w < sizeOf n := lookupChild_node_sizeOf hst
          have hwv := (ih w (by omega) hgw).2 (c :: rest) v
          simp only [hst, hwv, pickVeredict_replicate]
          cases hlit : lookupChild n.children c with
          | none => simp
          | some child =>
            simp only [hlit]
            have hcs : sizeOf child < sizeOf n := lookupChild_node_sizeOf hlit
            exact (ih child (by omega) (Ghost.child hg hlit)).1 rest v
    refine ⟨hEval, ?_⟩
    intro e v
    induction e with
    | nil => rw [wildcardVeredicts_nil]; rfl
    | cons c rest ihe =>
      rw [wildcardVeredicts_cons, hEval, ihe]
      rw [List.length_cons, List.replicate_succ]

theorem eval_ghost (dp : Bool) {n : ExpressionNode} (hg : Ghost n)
    (e : List Char) (v : Bool) : __evaluateExpression dp e n v = v :=
  (eval_ghost_aux dp (sizeOf n + 1) n (by omega) hg).1 e v

theorem wv_ghost (dp : Bool) {n : ExpressionNode} (hg : Ghost n)
    (e : List Char) (v : Bool) :
    wildcardVeredicts dp e n v = List.replicate e.length v :=
  (eval_ghost_aux dp (sizeOf n + 1) n (by omega) hg).2 e v

theorem eval_GE_aux (dp : Bool) :
    ∀ N : Nat, ∀ t' t : ExpressionNode, sizeOf t' < N → GE t t' →
      (∀ e v, __evaluateExpression dp e t v = __evaluateExpression dp e t' v)
    ∧ (∀ e v, wildcardVeredicts dp e t v = wildcardVeredicts dp e t' v) := by
  intro N
  induction N with
  | zero => intro t' t h; omega
  | succ N ih =>
    intro t' t hn hGE
    have hEval : ∀ e v, __evaluateExpression dp e t v = __evaluateExpression dp e t' v := by
      intro e v
      cases e with
      | nil =>
        rw [eval_nil, eval_nil]
        have hA : anchorCheck t [] = anchorCheck t' [] := by
          unfold anchorCheck
          cases hq : lookupChild t.children '$' with
          | some u =>
            cases hq' : lookupChild t'.children '$' with
            | none => exact absurd hq' (GE.sub hGE hq)
            | some u' =>
              have hu := GE.child_some hGE hq hq'
              dsimp only
              rw [GE.allow_eq hu, GE.disallow_eq hu]
          | none =>
            cases hq' : lookupChild t'.children '$' with
            | none => rfl
            | some u' =>
              have hgu := GE.none_ghost hGE hq hq'
              simp [Ghost.allow_false hgu, Ghost.disallow_false hgu]
        rw [hA, GE.allow_eq hGE, GE.disallow_eq hGE]
      | cons c rest =>
        rw [eval_cons, eval_cons]
        have hff : foldFlags t v = foldFlags t' v := by
          unfold foldFlags
          rw [GE.allow_eq hGE, GE.disallow_eq hGE]
        rw [hff]
        have hlit_all : ∀ vv : Bool,
            (match lookupChild t.children c with
             | some child => __evaluateExpression dp rest child vv
             | none => vv)
          = (match lookupChild t'.children c with
             | some child => __evaluateExpression dp rest child vv
             | none => vv) := by
          intro vv
          cases hl : lookupChild t.children c with
          | some child =>
            cases hl' : lookupChild t'.children c with
            | none => exact absurd hl' (GE.sub hGE hl)
            | some child' =>
              have hcc := GE.child_some hGE hl hl'
              have hsz : sizeOf child' < sizeOf t' := lookupChild_node_sizeOf hl'
              simp only
              exact (ih child' child (by omega) hcc).1 rest vv
          | none =>
            cases hl' : lookupChild t'.children c with
            | some child' =>
              have hgc := GE.none_ghost hGE hl hl'
              simp only
              exact (eval_ghost dp hgc rest vv).symm
            | none => simp only
        cases hst : lookupChild t.children '*' with
        | some w =>
          cases hst' : lookupChild t'.children '*' with
          | none => exact absurd hst' (GE.sub hGE hst)
          | some w' =>
            have hww := GE.child_some hGE hst hst'
            have hsw : sizeOf w' < sizeOf t' := lookupChild_node_sizeOf hst'
            have hwv := (ih w' w (by omega) hww).2 (c :: rest) (foldFlags t' v)
            simp only [hwv]
            exact hlit_all _
        | none =>
          cases hst' : lookupChild t'.children '*' with
          | some w' =>
            have hgw := GE.none_ghost hGE hst hst'
            have hwv := wv_ghost dp hgw (c :: rest) (foldFlags t' v)
            simp only [hwv, pickVeredict_replicate]
            exact hlit_all _
          | none =>
            simp only
            exact hlit_all _
    refine ⟨hEval, ?_⟩
    intro e v
    induction e with
    | nil => rw [wildcardVeredicts_nil, wildcardVeredicts_nil]
    | cons c rest ihe => rw [wildcardVeredicts_cons, wildcardVeredicts_cons, hEval, ihe]

theorem eval_GE (dp : Bool) {t t' : ExpressionNode} (h : GE t t')
    (e : List Char) (v : Bool) :
    __evaluateExpression dp e t v = __evaluateExpression dp e t' v :=
  (eval_GE_aux dp (sizeOf t' + 1) t' t (by omega) h).1 e v

theorem GE_refl_aux : ∀ N : Nat, ∀ n : ExpressionNode, sizeOf n < N → GE n n := by
  intro N
  induction N with
  | zero => intro n h; omega
  | succ N ih =>
    intro n hn
    refine GE.intro n n rfl rfl ?_ ?_ ?_
    · intro c u u' h1 h2
      rw [h1] at h2
      rw [Option.some.injEq] at h2
      subst h2
      have := lookupChild_node_sizeOf h1
      exact ih u (by omega)
    · intro c u' h1 h2
      rw [h1] at h2
      cases h2
    · intro c u h1 h2
      rw [h1] at h2
      cases h2

theorem GE_refl (n : ExpressionNode) : GE n n :=
  GE_refl_aux (sizeOf n + 1) n (by omega)

theorem ghost_new (s : String) : Ghost (ExpressionNode.new s) := by
  refine Ghost.intro _ rfl rfl ?_
  intro c u h
  cases h

theorem ghost_setChild {n u : ExpressionNode} (c : Char) (hn : Ghost n) (hu : Ghost u) :
    Ghost (n.withChildren (setChild n.children c u)) := by
  refine Ghost.intro _ ?_ ?_ ?_
  · rw [withChildren_allowFlag]; exact Ghost.allow_false hn
  · rw [withChildren_disallowFlag]; exact Ghost.disallow_false hn
  · intro c' u' h
    rw [withChildren_children] at h
    by_cases hc : c' = c
    · subst hc
      rw [lookupChild_setChild_self, Option.some.injEq] at h
      subst h
      exact hu
    · rw [lookupChild_setChild_ne _ _ _ _ hc] at h
      exact Ghost.child hn h

theorem ghost_aux_bad (k : String) (h1 : k ≠ "allow") (h2 : k ≠ "disallow") :
    ∀ (l : List Char) (n : ExpressionNode), Ghost n → Ghost (addExpressionAux n l k) := by
  intro l
  induction l with
  | nil => intro n hn; exact hn
  | cons c cs ih =>
    intro n hn
    rw [addExpressionAux_cons]
    have hchild : Ghost (match lookupChild n.children c with
        | some u => u
        | none => ExpressionNode.new (String.singleton c)) := by
      cases hl : lookupChild n.children c with
      | some u => exact Ghost.child hn hl
      | none => exact ghost_new _
    apply ghost_setChild
    · exact hn
    · cases cs with
      | nil =>
        dsimp only
        rw [setFlags_id _ _ h1 h2]
        exact hchild
      | cons c' cs' =>
        dsimp only
        exact ih _ hchild

theorem ghost_GE_new {u' : ExpressionNode} (s : String) (h : Ghost u') :
    GE (ExpressionNode.new s) u' := by
  refine GE.intro _ _ ?_ ?_ ?_ ?_ ?_
  · rw [Ghost.allow_false h]; rfl
  · rw [Ghost.disallow_false h]; rfl
  · intro c u u₀ h1 h2
    cases h1
  · intro c u₀ h1 h2
    exact Ghost.child h h2
  · intro c u h1 h2
    cases h1

theorem withAllowFlag_children (n : ExpressionNode) (b : Bool) :
    (n.withAllowFlag b).children = n.children := by
  obtain ⟨v, a, d, cs⟩ := n; rfl

theorem withAllowFlag_allowFlag (n : ExpressionNode) (b : Bool) :
    (n.withAllowFlag b).allowFlag = b := by
  obtain ⟨v, a, d, cs⟩ := n; rfl

theorem withAllowFlag_disallowFlag (n : ExpressionNode) (b : Bool) :
    (n.withAllowFlag b).disallowFlag = n.disallowFlag := by
  obtain ⟨v, a, d, cs⟩ := n; rfl

theorem withDisallowFlag_children (n : ExpressionNode) (b : Bool) :
    (n.withDisallowFlag b).children = n.children := by
  obtain ⟨v, a, d, cs⟩ := n; rfl

theorem withDisallowFlag_allowFlag (n : ExpressionNode) (b : Bool) :
    (n.withDisallowFlag b).allowFlag = n.allowFlag := by
  obtain ⟨v, a, d, cs⟩ := n; rfl

theorem withDisallowFlag_disallowFlag (n : ExpressionNode) (b : Bool) :
    (n.withDisallowFlag b).disallowFlag = b := by
  obtain ⟨v, a, d, cs⟩ := n; rfl

theorem setFlags_GE {u u' : ExpressionNode} (k : String) (h : GE u u') :
    GE (setFlags u k) (setFlags u' k) := by
  unfold setFlags
  by_cases h1 : k = "allow"
  · rw [if_pos h1, if_pos h1]
    refine GE.intro _ _ ?_ ?_ ?_ ?_ ?_
    · rw [withAllowFlag_allowFlag, withAllowFlag_allowFlag]
    · rw [withAllowFlag_disallowFlag, withAllowFlag_disallowFlag]
      exact GE.disallow_eq h
    · intro c a b ha hb
      rw [withAllowFlag_children] at ha hb
      exact GE.child_some h ha hb
    · intro c b ha hb
      rw [withAllowFlag_children] at ha hb
      exact GE.none_ghost h ha hb
    · intro c a ha
      rw [withAllowFlag_children] at ha ⊢
      exact GE.sub h ha
  · rw [if_neg h1, if_neg h1]
    by_cases h2 : k = "disallow"
    · rw [if_pos h2, if_pos h2]
      refine GE.intro _ _ ?_ ?_ ?_ ?_ ?_
      · rw [withDisallowFlag_allowFlag, withDisallowFlag_allowFlag]
        exact GE.allow_eq h
      · rw [withDisallowFlag_disallowFlag, withDisallowFlag_disallowFlag]
      · intro c a b ha hb
        rw [withDisallowFlag_children] at ha hb
        exact GE.child_some h ha hb
      · intro c b ha hb
        rw [withDisallowFlag_children] at ha hb
        exact GE.none_ghost h ha hb
      · intro c a ha
        rw [withDisallowFlag_children] at ha ⊢
        exact GE.sub h ha
    · rw [if_neg h2, if_neg h2]
      exact h

theorem GE_withSetChild {t t' A A' : ExpressionNode} (c : Char)
    (h : GE t t') (hA : GE A A') :
    GE (t.withChildren (setChild t.children c A))
       (t'.withChildren (setChild t'.children c A')) := by
  refine GE.intro _ _ ?_ ?_ ?_ ?_ ?_
  · rw [withChildren_allowFlag, withChildren_allowFlag]
    exact GE.allow_eq h
  · rw [withChildren_disallowFlag, withChildren_disallowFlag]
    exact GE.disallow_eq h
  · intro c' u u' h1 h2
    rw [withChildren_children] at h1 h2
    by_cases hc : c' = c
    · subst hc
      rw [lookupChild_setChild_self, Option.some.injEq] at h1 h2
      subst h1; subst h2
      exact hA
    · rw [lookupChild_setChild_ne _ _ _ _ hc] at h1 h2
      exact GE.child_some h h1 h2
  · intro c' u' h1 h2
    rw [withChildren_children] at h1 h2
    by_cases hc : c' = c
    · subst hc
      rw [lookupChild_setChild_self] at h1
      cases h1
    · rw [lookupChild_setChild_ne _ _ _ _ hc] at h1 h2
      exact GE.none_ghost h h1 h2
  · intro c' u h1
    rw [withChildren_children] at h1 ⊢
    by_cases hc : c' = c
    · subst hc
      rw [lookupChild_setChild_self]
      simp
    · rw [lookupChild_setChild_ne _ _ _ _ hc] at h1 ⊢
      exact GE.sub h h1

theorem GE_addAux (p : List Char) :
    ∀ (t t' : ExpressionNode) (k : String), GE t t' →
      GE (addExpressionAux t p k) (addExpressionAux t' p k) := by
  induction p with
  | nil => intro t t' k h; exact h
  | cons c cs ih =>
    intro t t' k h
    rw [addExpressionAux_cons, addExpressionAux_cons]
    have hchild : GE (match lookupChild t.children c with
        | some u => u
        | none => ExpressionNode.new (String.singleton c))
      (match lookupChild t'.children c with
        | some u => u
        | none => ExpressionNode.new (String.singleton c)) := by
      cases hl : lookupChild t.children c with
      | some u =>
        cases hl' : lookupChild t'.children c with
        | none => exact absurd hl' (GE.sub h hl)
        | some u' => dsimp only; exact GE.child_some h hl hl'
      | none =>
        cases hl' : lookupChild t'.children c with
        | some u' => dsimp only; exact ghost_GE_new _ (GE.none_ghost h hl hl')
        | none => dsimp only; exact GE_refl _
    apply GE_withSetChild c h
    cases cs with
    | nil => dsimp only; exact setFlags_GE k hchild
    | cons c' cs' => dsimp only; exact ih _ _ k hchild

theorem GE_insertBad (k : String) (h1 : k ≠ "allow") (h2 : k ≠ "disallow") :
    ∀ (p : List Char) (t : ExpressionNode), GE t (addExpressionAux t p k) := by
  intro p
  induction p with
  | nil => intro t; exact GE_refl t
  | cons c cs ih =>
    intro t
    rw [addExpressionAux_cons]
    refine GE.intro _ _ ?_ ?_ ?_ ?_ ?_
    · rw [withChildren_allowFlag]
    · rw [withChildren_disallowFlag]
    · intro c' u u' hu hu'
      rw [withChildren_children] at hu'
      by_cases hc : c' = c
      · subst hc
        rw [lookupChild_setChild_self, Option.some.injEq] at hu'
        subst hu'
        rw [hu]
        dsimp only
        cases cs with
        | nil =>
          dsimp only
          rw [setFlags_id _ _ h1 h2]
          exact GE_refl u
        | cons c'' cs'' =>
          dsimp only
          exact ih u
      · rw [lookupChild_setChild_ne _ _ _ _ hc, hu, Option.some.injEq] at hu'
        subst hu'
        exact GE_refl u
    · intro c' u' hu hu'
      rw [withChildren_children] at hu'
      by_cases hc : c' = c
      · subst hc
        rw [lookupChild_setChild_self, Option.some.injEq] at hu'
        subst hu'
        rw [hu]
        dsimp only
        cases cs with
        | nil =>
          dsimp only
          rw [setFlags_id _ _ h1 h2]
          exact ghost_new _
        | cons c'' cs'' =>
          dsimp only
          exact ghost_aux_bad k h1 h2 _ _ (ghost_new _)
      · rw [lookupChild_setChild_ne _ _ _ _ hc, hu] at hu'
        cases hu'
    · intro c' u hu
      rw [withChildren_children]
      by_cases hc : c' = c
      · subst hc
        rw [lookupChild_setChild_self]
        simp
      · rw [lookupChild_setChild_ne _ _ _ _ hc, hu]
        simp

theorem GE_applyAll (L : List (String × String)) :
    ∀ a b : ExpressionTree, GE a.root b.root →
      GE (applyAll a L).root (applyAll b L).root := by
  induction L with
  | nil => intro a b h; exact h
  | cons r L ih =>
    intro a b h
    rw [applyAll_cons, applyAll_cons]
    exact ih _ _ (GE_addAux r.1.data _ _ r.2 h)

theorem ghost_nodeAtPath : ∀ (q : List Char) (g m : ExpressionNode), Ghost g →
    nodeAtPath g q = some m → m.allowFlag = false ∧ m.disallowFlag = false := by
  intro q
  induction q with
  | nil =>
    intro g m hg h
    simp only [nodeAtPath, Option.some.injEq] at h
    subst h
    exact ⟨Ghost.allow_false hg, Ghost.disallow_false hg⟩
  | cons c cs ih =>
    intro g m hg h
    cases hl : lookupChild g.children c with
    | none =>
      simp only [nodeAtPath, hl] at h
      exact Option.noConfusion h
    | some u =>
      simp only [nodeAtPath, hl] at h
      exact ih u m (Ghost.child hg hl) h

theorem GE_nodeAtPath : ∀ (q : List Char) (t t' : ExpressionNode), GE t t' →
    ∀ n', nodeAtPath t' q = some n' →
      (∃ n₀, nodeAtPath t q = some n₀ ∧ n'.allowFlag = n₀.allowFlag
          ∧ n'.disallowFlag = n₀.disallowFlag)
    ∨ (n'.allowFlag = false ∧ n'.disallowFlag = false) := by
  intro q
  induction q with
  | nil =>
    intro t t' hGE n' h
    simp only [nodeAtPath, Option.some.injEq] at h
    subst h
    left
    exact ⟨t, rfl, (GE.allow_eq hGE).symm, (GE.disallow_eq hGE).symm⟩
  | cons c cs ih =>
    intro t t' hGE n' h
    cases hl' : lookupChild t'.children c with
    | none =>
      simp only [nodeAtPath, hl'] at h
      exact Option.noConfusion h
    | some u' =>
      simp only [nodeAtPath, hl'] at h
      cases hl : lookupChild t.children c with
      | some u =>
        rcases ih u u' (GE.child_some hGE hl hl') n' h with ⟨n₀, hn1, hn2, hn3⟩ | hright
        · left
          refine ⟨n₀, ?_, hn2, hn3⟩
          simp only [nodeAtPath, hl]
          exact hn1
        · right; exact hright
      | none =>
        right
        exact ghost_nodeAtPath cs u' n' (GE.none_ghost hGE hl hl') h

theorem addExpressionAux_nodeAtPath :
    ∀ (l : List Char) (n : ExpressionNode) (k : String),
      l ≠ [] → ∃ m, nodeAtPath (addExpressionAux n l k) l = some m := by
  intro l
  induction l with
  | nil => intro n k h; exact absurd rfl h
  | cons c cs ih =>
    intro n k _
    rw [addExpressionAux_cons]
    cases cs with
    | nil =>
      dsimp only
      refine ⟨setFlags (match lookupChild n.children c with
        | some u => u
        | none => ExpressionNode.new (String.singleton c)) k, ?_⟩
      simp only [nodeAtPath, withChildren_children, lookupChild_setChild_self]
    | cons c' cs' =>
      dsimp only
      obtain ⟨m, hm⟩ := ih (match lookupChild n.children c with
        | some u => u
        | none => ExpressionNode.new (String.singleton c)) k (by simp)
      refine ⟨m, ?_⟩
      simp only [nodeAtPath, withChildren_children, lookupChild_setChild_self]
      exact hm

/-- C7: an `addPath`/`addExpression` call with a rule kind outside
`{"allow", "disallow"}` and a non-empty pattern (1) triggers the non-fatal
diagnostic, (2) still creates the nodes along the pattern, (3) mutates no
flag anywhere — every node of the new trie either existed before with the
same flags or is a fresh flagless node — and (4) is behaviourally a no-op:
after any further sequence of insertions, every evaluation result equals
what it would be had the invalid call never happened. -/
theorem claim_C7 (p k : String) (t : ExpressionTree) (hp : p ≠ "")
    (h1 : k ≠ "allow") (h2 : k ≠ "disallow") :
    addExpressionReports p k = true
  ∧ (∃ m, nodeAtPath (t.addExpression p k).root p.data = some m)
  ∧ (∀ (q : List Char) (n' : ExpressionNode),
      nodeAtPath (t.addExpression p k).root q = some n' →
        (∃ n₀, nodeAtPath t.root q = some n₀ ∧ n'.allowFlag = n₀.allowFlag
            ∧ n'.disallowFlag = n₀.disallowFlag)
      ∨ (n'.allowFlag = false ∧ n'.disallowFlag = false))
  ∧ (∀ (L : List (String × String)) (q : String),
      (applyAll (t.addExpression p k) L).evaluateExpression q
        = (applyAll t L).evaluateExpression q) := by
  have hpd : p.data ≠ [] := by
    intro hnil
    apply hp
    apply String.ext
    rw [hnil]
  have hGE : GE t.root (addExpressionAux t.root p.data k) := GE_insertBad k h1 h2 p.data t.root
  refine ⟨?_, ?_, ?_, ?_⟩
  · unfold addExpressionReports
    simp [hpd, h1, h2]
  · exact addExpressionAux_nodeAtPath p.data t.root k hpd
  · intro q n' h
    exact GE_nodeAtPath q t.root _ hGE n' h
  · intro L q
    have hGEL : GE (applyAll t L).root (applyAll (t.addExpression p k) L).root :=
      GE_applyAll L t (t.addExpression p k) hGE
    unfold ExpressionTree.evaluateExpression
    rw [applyAll_dp, applyAll_dp]
    show __evaluateExpression t.DEFAULT_PERMISSION q.data
        (applyAll (t.addExpression p k) L).root t.DEFAULT_PERMISSION = _
    exact (eval_GE t.DEFAULT_PERMISSION hGEL q.data t.DEFAULT_PERMISSION).symm

theorem claim_C7_witness :
    (("x" : String) ≠ "" ∧ ("deny" : String) ≠ "allow" ∧ ("deny" : String) ≠ "disallow")
  ∧ addExpressionReports "x" "deny" = true
  ∧ (applyAll ((ExpressionTree.new true).addExpression "x" "deny")
        [("x", "allow")]).evaluateExpression "x"
      = (applyAll (ExpressionTree.new true) [("x", "allow")]).evaluateExpression "x" :=
  ⟨⟨by decide, by decide, by decide⟩,
   (claim_C7 "x" "deny" (ExpressionTree.new true) (by decide) (by decide) (by decide)).1,
   (claim_C7 "x" "deny" (ExpressionTree.new true) (by decide) (by decide)
     (by decide)).2.2.2 [("x", "allow")] "x"⟩

end Spiderbot
